import Mathlib

/-!
Verification of the mdbook-git preprocessor (src/preprocessor.rs).

Text is modelled as `List Char` (all relevant inputs are ASCII, so
char-for-char equality coincides with byte-for-byte equality).
Each definition below is a direct translation of the Rust function of
the same (or closely corresponding) name in src/preprocessor.rs.
-/

/-- Rust `std::ops::Bound<usize>` as used for line ranges. -/
inductive RBound where
  | unbounded
  | included (n : Nat)
  | excluded (n : Nat)
deriving DecidableEq

/-- Lower half of `RangeBounds::contains` for a `(Bound, Bound)` pair:
`Included s ↦ s ≤ i`, `Excluded s ↦ s < i`, `Unbounded ↦ true`. -/
def rangeContainsLower : RBound → Nat → Bool
  | RBound.unbounded, _ => true
  | RBound.included s, i => decide (s ≤ i)
  | RBound.excluded s, i => decide (s < i)

/-- Upper half of `RangeBounds::contains` for a `(Bound, Bound)` pair:
`Included e ↦ i ≤ e`, `Excluded e ↦ i < e`, `Unbounded ↦ true`. -/
def rangeContainsUpper : RBound → Nat → Bool
  | RBound.unbounded, _ => true
  | RBound.included e, i => decide (i ≤ e)
  | RBound.excluded e, i => decide (i < e)

/-- `RangeBounds::contains(&i)` for the pair `(start_bound, end_bound)`. -/
def rangeContains (r : RBound × RBound) (i : Nat) : Bool :=
  rangeContainsLower r.1 i && rangeContainsUpper r.2 i

/-- When a line is terminated by `'\n'`, Rust's `str::lines` strips one
trailing `'\r'`.  `acc` holds the chars of the current line in reverse. -/
def lineTermStrip (acc : List Char) : List Char :=
  match acc with
  | '\r' :: rest => rest.reverse
  | _ => acc.reverse

/-- Worker for `rustLines`: `acc` is the current (unterminated) line,
reversed.  At end of input a non-empty final line is emitted without
`'\r'`-stripping, exactly as Rust's `str::lines` does. -/
def rustLinesAux : List Char → List Char → List (List Char)
  | [], [] => []
  | [], acc => [acc.reverse]
  | c :: cs, acc =>
    if c = '\n' then lineTermStrip acc :: rustLinesAux cs []
    else rustLinesAux cs (c :: acc)

/-- Rust `str::lines`: split on `'\n'`, strip one `'\r'` before each `'\n'`,
no final empty line for a trailing terminator. -/
def rustLines (s : List Char) : List (List Char) := rustLinesAux s []

/-- Rust `line.starts_with("# ")`. -/
def startsWithCommentMarker (l : List Char) : Bool :=
  match l with
  | '#' :: ' ' :: _ => true
  | _ => false

/-- Body of the loop in `take_lines_comment_out_rest` (preprocessor.rs:136-140):
a line is turned into `"# " ++ line` iff it does not already start with
`"# "` and no range of the set contains its index. -/
def annotateLine (ranges : List (RBound × RBound)) (i : Nat) (line : List Char) :
    List Char :=
  if !startsWithCommentMarker line && ranges.all (fun r => !rangeContains r i) then
    '#' :: ' ' :: line
  else line

/-- The `for (i, line) in lines.iter_mut().enumerate()` loop: indexed map of
`annotateLine` starting at index `i`. -/
def annotateFrom (ranges : List (RBound × RBound)) : Nat → List (List Char) →
    List (List Char)
  | _, [] => []
  | i, line :: rest => annotateLine ranges i line :: annotateFrom ranges (i + 1) rest

/-- The mutated `lines` vector of `take_lines_comment_out_rest`, just before
it is re-joined. -/
def annotatedLines (s : List Char) (ranges : List (RBound × RBound)) :
    List (List Char) :=
  annotateFrom ranges 0 (rustLines s)

/-- `take_lines_comment_out_rest` (preprocessor.rs:133-143): split into lines,
comment out every line outside all ranges, re-join with `"\n"`. -/
def take_lines_comment_out_rest (s : List Char) (ranges : List (RBound × RBound)) :
    List Char :=
  List.intercalate ['\n'] (annotatedLines s ranges)

/-- Rust `str::split(sep)` specialised to a single separator char:
always yields at least one (possibly empty) piece, like `"".split(':') == [""]`. -/
def splitOnChar (sep : Char) : List Char → List (List Char)
  | [] => [[]]
  | c :: cs =>
    if c = sep then [] :: splitOnChar sep cs
    else
      match splitOnChar sep cs with
      | [] => [[c]]
      | p :: ps => (c :: p) :: ps

/-- Rust `str::split_once(':')`: `none` when there is no colon, otherwise the
pieces before and after the first colon. -/
def splitOnceColon : List Char → Option (List Char × List Char)
  | [] => none
  | c :: cs =>
    if c = ':' then some ([], cs)
    else (splitOnceColon cs).map (fun p => (c :: p.1, p.2))

/-- Rust `str::trim` (restricted to ASCII whitespace, which covers every input
in this development): drop whitespace from both ends. -/
def trimChars (cs : List Char) : List Char :=
  ((cs.dropWhile Char.isWhitespace).reverse.dropWhile Char.isWhitespace).reverse

/-- Numeric value of a digit string, most significant first. -/
def digitsToNat (ds : List Char) : Nat :=
  ds.foldl (fun a c => a * 10 + (c.toNat - 48)) 0

/-- The optional leading `'+'` sign accepted by Rust's unsigned
`str::parse`. -/
def stripPlus (cs : List Char) : List Char :=
  match cs with
  | '+' :: rest => rest
  | _ => cs

/-- Rust `str::parse` for an unsigned integer type with `bound` values
(`u32` has `bound = 2^32`, `usize` has `bound = 2^64`): an optional leading
`'+'`, then one or more ASCII digits, value below `bound`; anything else is
a parse error (`none`). -/
def parseUnsigned (bound : Nat) (cs : List Char) : Option Nat :=
  let ds := stripPlus cs
  if ds.isEmpty then none
  else if ds.all Char.isDigit then
    if digitsToNat ds < bound then some (digitsToNat ds) else none
  else none

/-- `str::parse::<usize>` (64-bit target). -/
def parseUsize (cs : List Char) : Option Nat := parseUnsigned (2 ^ 64) cs

/-- `str::parse::<u32>`. -/
def parseU32 (cs : List Char) : Option Nat := parseUnsigned (2 ^ 32) cs

/-- `parse_range` (preprocessor.rs:145-170): match on `range.split(':')`,
arms in source order. -/
def parse_range (range : List Char) : Option (RBound × RBound) :=
  match splitOnChar ':' range with
  | [[]] => none
  | [line] =>
    (parseUsize line).map (fun n => (RBound.included n, RBound.included n))
  | [[], []] => some (RBound.unbounded, RBound.unbounded)
  | [start, []] =>
    (parseUsize start).map (fun n => (RBound.included n, RBound.unbounded))
  | [[], stop] =>
    (parseUsize stop).map (fun n => (RBound.unbounded, RBound.excluded n))
  | [start, stop] =>
    match parseUsize start, parseUsize stop with
    | some a, some b => some (RBound.included a, RBound.excluded b)
    | _, _ => none
  | _ => none

/-- `parse_path_and_ranges` (preprocessor.rs:174-196): split at the first
colon; a bracketed tail is split on commas, trimmed and each piece parsed
independently (failures silently dropped); otherwise a single range. -/
def parse_path_and_ranges (par : List Char) : List Char × List (RBound × RBound) :=
  match splitOnceColon par with
  | none => (par, [(RBound.unbounded, RBound.unbounded)])
  | some (path, rest) =>
    if rest.head? = some '[' ∧ rest.getLast? = some ']' then
      (path,
        ((splitOnChar ',' (rest.drop 1).dropLast).map trimChars).filterMap parse_range)
    else (path, (parse_range rest).toList)

/-- The raw text of an array-range command tail, `path:[e1,e2,...]`, built
from a path and the comma-separated entry strings.  Used to state claims
about `parse_path_and_ranges` on array syntax. -/
def mkArrayCmd (path : List Char) (entries : List (List Char)) : List Char :=
  path ++ ':' :: '[' :: (List.intercalate [','] entries ++ [']'])

/-- `GitType` (preprocessor.rs:283-297). `show` is a Lean keyword, so the
constructors carry a `Cmd` suffix. -/
inductive GitType where
  | showCmd (id : List Char) (path : List Char) (ranges : List (RBound × RBound))
  | diffCmd (old : List Char) (new : List Char) (path : List Char)
      (ranges : List (RBound × RBound)) (options : List (List Char))
deriving DecidableEq

/-- The `ranges` field of either `GitType` variant. -/
def gitTypeRanges : GitType → List (RBound × RBound)
  | GitType.showCmd _ _ r => r
  | GitType.diffCmd _ _ _ r _ => r

/-- The token `"show"`. -/
def strShow : List Char := ['s', 'h', 'o', 'w']

/-- The token `"diff"`. -/
def strDiff : List Char := ['d', 'i', 'f', 'f']

/-- The `match subcmd.as_slice()` of `GitType::try_from`
(preprocessor.rs:313-338), applied to the token list after the
`sort_unstable_by` resorting step (which is modelled separately by
`sortUnstableContract`, since Rust's unstable sort fixes no unique output). -/
def gitTypeTryFromSorted (subcmd : List (List Char)) : Option GitType :=
  match subcmd with
  | cmd :: arg1 :: rest =>
    if cmd = strShow then
      match splitOnceColon arg1 with
      | some (id, pr) =>
        let pandr := parse_path_and_ranges pr
        if pandr.2.length ≠ 0 then some (GitType.showCmd id pandr.1 pandr.2)
        else none
      | none => none
    else if cmd = strDiff then
      match rest with
      | arg2 :: arg3 :: options =>
        let pandr := parse_path_and_ranges arg3
        if pandr.2.length ≠ 0 then
          some (GitType.diffCmd arg1 arg2 pandr.1 pandr.2 options)
        else none
      | _ => none
    else none
  | _ => none

/-- Rust `token.starts_with('-')`. -/
def isFlagToken (t : List Char) : Bool := t.head? = some '-'

/-- Contract of `subcmd.sort_unstable_by(|a, b|
a.starts_with('-').cmp(&b.starts_with('-')))` (preprocessor.rs:311).
`sort_unstable_by` guarantees exactly this much: the output is a permutation
of the input that is sorted under the comparator (`false < true` on the
flag key); it does **not** promise stability. -/
def sortUnstableContract (l l' : List (List Char)) : Prop :=
  l.Perm l' ∧ l'.Pairwise (fun a b => isFlagToken a ≤ isFlagToken b)

/-- One scanner match together with the outcome of resolving it:
`start`/`stop` are the byte span of the whole token in the text (the regex
yields non-overlapping spans in increasing order), `result` is
`some contents` when `git_show`/`git_diff` succeeded and `none` when
resolution failed. -/
structure ResolvedCmd where
  start : Nat
  stop : Nat
  result : Option (List Char)
deriving DecidableEq

/-- The loop of `replace_all` (preprocessor.rs:76-108): push the text up to
the token, then on success push the contents and advance
`previous_end_index`; on failure do nothing further (the source leaves
`previous_end_index` where it was). -/
def replaceAllAux (s : List Char) : List ResolvedCmd → Nat → List Char → List Char
  | [], prev, acc => acc ++ s.drop prev
  | c :: rest, prev, acc =>
    let acc2 := acc ++ (s.drop prev).take (c.start - prev)
    match c.result with
    | some contents => replaceAllAux s rest c.stop (acc2 ++ contents)
    | none => replaceAllAux s rest prev acc2

/-- `replace_all` (preprocessor.rs:66-109) for a configured repository,
with scanning and resolution abstracted into the `cmds` list. -/
def replace_all (s : List Char) (cmds : List ResolvedCmd) : List Char :=
  replaceAllAux s cmds 0 []

/-- The option handling of `git_diff` (preprocessor.rs:212-226), i.e.
everything `git_diff` observes about its `options` argument: the first
token starting with `"-U"` has its remainder parsed as a `u32` — a parse
failure there is propagated by `?` and aborts `git_diff` — and hide mode is
on iff some token starts with `"-h"`. -/
def gitDiffOptionsEffect (options : List (List Char)) :
    Except Unit (Option Nat × Bool) :=
  match options.find? (fun item => item.take 2 == ['-', 'U']) with
  | some item =>
    match parseU32 (item.drop 2) with
    | some n =>
      Except.ok (some n, options.any (fun item => item.take 2 == ['-', 'h']))
    | none => Except.error ()
  | none =>
    Except.ok (none, options.any (fun item => item.take 2 == ['-', 'h']))

/-- The spec's notion of a recognized diff option: exactly `-h`, or
`-U<integer>` with a valid `u32` integer. -/
def recognizedDiffOption (t : List Char) : Bool :=
  t == ['-', 'h'] || (t.take 2 == ['-', 'U'] && (parseU32 (t.drop 2)).isSome)

instance : DecidableEq (Except Unit (Option Nat × Bool)) := fun a b =>
  match a, b with
  | Except.ok x, Except.ok y =>
    if h : x = y then isTrue (by rw [h])
    else isFalse (fun he => h (Except.ok.inj he))
  | Except.error x, Except.error y => isTrue (by cases x; cases y; rfl)
  | Except.ok _, Except.error _ => isFalse (fun he => Except.noConfusion he)
  | Except.error _, Except.ok _ => isFalse (fun he => Except.noConfusion he)

/-! ## Helper lemmas -/

/-- `find?` skips a head element on which the predicate is false. -/
theorem findq_cons_of_false {α : Type} (p : α → Bool) (a : α) (l : List α)
    (h : p a = false) : (a :: l).find? p = l.find? p := by
  simp [List.find?, h]

/-- `annotateFrom` is an indexed map: its `i`-th element is `annotateLine`
applied at index `n + i` to the `i`-th input line. -/
theorem annotateFrom_getElem? (R : List (RBound × RBound)) (n : Nat)
    (ls : List (List Char)) (i : Nat) :
    (annotateFrom R n ls)[i]? = (ls[i]?).map (annotateLine R (n + i)) := by
  induction ls generalizing n i with
  | nil => simp [annotateFrom]
  | cons l rest ih =>
    cases i with
    | zero => simp [annotateFrom]
    | succ k =>
      simp only [annotateFrom, List.getElem?_cons_succ, ih (n + 1) k]
      have : n + 1 + k = n + (k + 1) := by omega
      rw [this]

/-! ## C1 -/

/-- C1: the claim states that when a token's resolution fails, `replace_all`
leaves the output byte-for-byte equal to the input in that region, with the
surrounding text appearing exactly once.  The code, however, pushes the text
before the token and then fails to advance `previous_end_index`, so that text
is emitted a second time by the following push.  At the concrete text `"XTY"`
with a single failing token at span `[1, 2)`, the output is `"XXTY"`, not
`"XTY"`: the prefix `"X"` is duplicated. -/
theorem c1_replace_all_duplicates_before_failed_token :
    replace_all ['X', 'T', 'Y'] [⟨1, 2, none⟩] = ['X', 'X', 'T', 'Y'] ∧
    replace_all ['X', 'T', 'Y'] [⟨1, 2, none⟩] ≠ ['X', 'T', 'Y'] := by
  decide

/-! ## C2 -/

/-- C2 (counterexample): the claim asserts the resorting is a stable
partition, i.e. the relative order among flag tokens is preserved exactly.
The code calls `sort_unstable_by`, whose contract only guarantees a sorted
permutation.  For the token list `["-x", "-y", "p"]` the output
`["p", "-y", "-x"]` satisfies that contract, yet the flag tokens appear in
reversed relative order, so the claimed property does not follow from the
code. -/
theorem c2_stable_partition_refuted :
    sortUnstableContract [['-', 'x'], ['-', 'y'], ['p']]
      [['p'], ['-', 'y'], ['-', 'x']] ∧
    ¬ ([['p'], ['-', 'y'], ['-', 'x']].filter isFlagToken =
        [['-', 'x'], ['-', 'y'], ['p']].filter isFlagToken) := by
  refine ⟨⟨?_, ?_⟩, ?_⟩ <;> decide

/-- C2 (amended): every output permitted by the unstable-sort contract is a
permutation of the input token list in which every flag token comes after
every positional token; relative order inside each class is not guaranteed. -/
theorem c2_flags_after_positionals (l l' : List (List Char))
    (h : sortUnstableContract l l') :
    l'.Perm l ∧
    ∀ i j (hi : i < l'.length) (hj : j < l'.length), i < j →
      isFlagToken l'[i] = true → isFlagToken l'[j] = true := by
  refine ⟨h.1.symm, fun i j hi hj hij hflag => ?_⟩
  have hle := List.pairwise_iff_getElem.mp h.2 i j hi hj hij
  rw [hflag] at hle
  cases hb : isFlagToken l'[j] with
  | true => rfl
  | false => rw [hb] at hle; exact absurd hle (by decide)

/-- C2 (witness): the amended theorem applied to the concrete contract
instance `["diff", "-h"] ↦ ["diff", "-h"]`. -/
theorem c2_flags_after_positionals_witness :
    ([strDiff, ['-', 'h']] : List (List Char)).Perm [strDiff, ['-', 'h']] ∧
    ∀ i j (hi : i < ([strDiff, ['-', 'h']] : List (List Char)).length)
      (hj : j < ([strDiff, ['-', 'h']] : List (List Char)).length), i < j →
      isFlagToken ([strDiff, ['-', 'h']] : List (List Char))[i] = true →
      isFlagToken ([strDiff, ['-', 'h']] : List (List Char))[j] = true :=
  c2_flags_after_positionals [strDiff, ['-', 'h']] [strDiff, ['-', 'h']]
    ⟨by decide, by decide⟩

/-! ## C4 -/

/-- C4 (counterexample): the claim asserts every unrecognized option token is
ignored and never causes an error.  The token `"-Ux"` is recognized neither
as `-U<integer>` nor as `-h`, yet its presence makes the option handling of
`git_diff` return an error (the `?` on the failed `u32` parse), whereas with
the token removed the options are processed successfully. -/
theorem c4_unrecognized_token_causes_error :
    recognizedDiffOption ['-', 'U', 'x'] = false ∧
    gitDiffOptionsEffect [['-', 'U', 'x']] = Except.error () ∧
    gitDiffOptionsEffect [] = Except.ok (none, false) := by
  decide

/-- C4 (amended): only tokens starting with `"-U"` or `"-h"` affect
`git_diff`: any other token can be removed without changing the observable
effect of the options.  A token starting with `"-U"` whose remainder is not
a valid `u32` makes `git_diff` fail, and any token starting with `"-h"`
(such as `"-help"`) enables hide mode. -/
theorem c4_inert_tokens_ignored (l1 l2 : List (List Char)) (t : List Char)
    (hU : t.take 2 ≠ ['-', 'U']) (hh : t.take 2 ≠ ['-', 'h']) :
    gitDiffOptionsEffect (l1 ++ t :: l2) = gitDiffOptionsEffect (l1 ++ l2) ∧
    gitDiffOptionsEffect [['-', 'h', 'e', 'l', 'p']] = Except.ok (none, true) := by
  constructor
  · have hU' : (t.take 2 == ['-', 'U']) = false := beq_eq_false_iff_ne.mpr hU
    have hh' : (t.take 2 == ['-', 'h']) = false := beq_eq_false_iff_ne.mpr hh
    unfold gitDiffOptionsEffect
    rw [List.find?_append,
      findq_cons_of_false (fun item => item.take 2 == ['-', 'U']) t l2 hU',
      ← List.find?_append]
    simp [List.any_append, List.any_cons, hh']
  · decide

/-- C4 (witness): the amended theorem at the concrete inert token `"-x"`
inserted before `"-h"`. -/
theorem c4_inert_tokens_ignored_witness :
    (['-', 'x'] : List Char).take 2 ≠ ['-', 'U'] ∧
    (['-', 'x'] : List Char).take 2 ≠ ['-', 'h'] ∧
    (gitDiffOptionsEffect ([] ++ ['-', 'x'] :: [['-', 'h']]) =
        gitDiffOptionsEffect ([] ++ [['-', 'h']]) ∧
      gitDiffOptionsEffect [['-', 'h', 'e', 'l', 'p']] =
        Except.ok (none, true)) :=
  ⟨by decide, by decide,
    c4_inert_tokens_ignored [] [['-', 'h']] ['-', 'x'] (by decide) (by decide)⟩

/-! ## C9 -/

/-- C9: every `GitType` value the parser produces has a non-empty range set:
whichever token list the resorted body yields, if `GitType::try_from`
returns a command then its `ranges` field is not the empty list, because
both the `show` and the `diff` arm guard construction with
`ranges.len() != 0`. -/
theorem c9_parsed_ranges_nonempty (subcmd : List (List Char)) (g : GitType)
    (h : gitTypeTryFromSorted subcmd = some g) : gitTypeRanges g ≠ [] := by
  unfold gitTypeTryFromSorted at h
  split at h
  case h_2 => exact absurd h (by simp)
  case h_1 cmd arg1 rest =>
    by_cases hs : cmd = strShow
    · rw [if_pos hs] at h
      cases hsp : splitOnceColon arg1 with
      | none => rw [hsp] at h; exact absurd h (by simp)
      | some v =>
        rw [hsp] at h
        simp only at h
        by_cases hlen : (parse_path_and_ranges v.2).2.length ≠ 0
        · rw [if_pos hlen] at h
          injection h with h
          subst h
          simpa [gitTypeRanges, ← List.length_eq_zero] using hlen
        · rw [if_neg hlen] at h; exact absurd h (by simp)
    · rw [if_neg hs] at h
      by_cases hd : cmd = strDiff
      · rw [if_pos hd] at h
        cases rest with
        | nil => exact absurd h (by simp)
        | cons arg2 rest' =>
          cases rest' with
          | nil => exact absurd h (by simp)
          | cons arg3 options =>
            simp only at h
            by_cases hlen : (parse_path_and_ranges arg3).2.length ≠ 0
            · rw [if_pos hlen] at h
              injection h with h
              subst h
              simpa [gitTypeRanges, ← List.length_eq_zero] using hlen
            · rw [if_neg hlen] at h; exact absurd h (by simp)
      · rw [if_neg hd] at h; exact absurd h (by simp)

/-- C9 (witness): the theorem applied to the concrete parsed command
`show a:f`. -/
theorem c9_parsed_ranges_nonempty_witness :
    gitTypeRanges
      (GitType.showCmd ['a'] ['f'] [(RBound.unbounded, RBound.unbounded)]) ≠ [] :=
  c9_parsed_ranges_nonempty [strShow, ['a', ':', 'f']]
    (GitType.showCmd ['a'] ['f'] [(RBound.unbounded, RBound.unbounded)])
    (by decide)

/-! ## C10 -/

/-- C10: the annotator never alters selected content: if line index `i` is
selected by at least one range of the set, the `i`-th line of the mutated
line vector of `take_lines_comment_out_rest` equals the `i`-th input line
unchanged; and for every index, the only modification the function ever
makes is turning an unselected line that does not already start with `"# "`
into `"# " ++ line`. -/
theorem c10_selected_lines_unchanged (s : List Char)
    (R : List (RBound × RBound)) (i : Nat)
    (hsel : ∃ r ∈ R, rangeContains r i = true) :
    (annotatedLines s R)[i]? = (rustLines s)[i]? ∧
    ∀ j, (annotatedLines s R)[j]? = (rustLines s)[j]? ∨
      ∃ l, (rustLines s)[j]? = some l ∧ startsWithCommentMarker l = false ∧
        (∀ r ∈ R, rangeContains r j = false) ∧
        (annotatedLines s R)[j]? = some ('#' :: ' ' :: l) := by
  have hg : ∀ j, (annotatedLines s R)[j]? =
      ((rustLines s)[j]?).map (annotateLine R j) := by
    intro j
    simpa using annotateFrom_getElem? R 0 (rustLines s) j
  constructor
  · rw [hg i]
    cases hl : (rustLines s)[i]? with
    | none => rfl
    | some l =>
      simp only [Option.map_some']
      congr 1
      unfold annotateLine
      rw [if_neg]
      obtain ⟨r, hr, hcont⟩ := hsel
      intro hcond
      have := (Bool.and_eq_true _ _).mp hcond
      have hall := List.all_eq_true.mp this.2 r hr
      rw [hcont] at hall
      exact absurd hall (by decide)
  · intro j
    rw [hg j]
    cases hl : (rustLines s)[j]? with
    | none => left; rfl
    | some l =>
      by_cases hsw : startsWithCommentMarker l = true
      · left
        simp only [Option.map_some']
        congr 1
        unfold annotateLine
        rw [if_neg]
        simp [hsw]
      · by_cases hall : R.all (fun r => !rangeContains r j) = true
        · right
          refine ⟨l, rfl, by simpa using hsw, ?_, ?_⟩
          · intro r hr
            have := List.all_eq_true.mp hall r hr
            simpa using this
          · simp only [Option.map_some']
            congr 1
            unfold annotateLine
            rw [if_pos]
            simp [hsw, hall]
        · left
          simp only [Option.map_some']
          congr 1
          unfold annotateLine
          rw [if_neg]
          simp only [Bool.and_eq_true, Bool.not_eq_true']
          intro hcond
          exact absurd hcond.2 hall

/-- C10 (witness): the theorem at the concrete input `"a\nb"` with the
single range `(Included 0, Included 0)` and selected index `0`. -/
theorem c10_selected_lines_unchanged_witness :
    (∃ r ∈ ([(RBound.included 0, RBound.included 0)] : List (RBound × RBound)),
      rangeContains r 0 = true) ∧
    ((annotatedLines ['a', '\n', 'b'] [(RBound.included 0, RBound.included 0)])[0]? =
        (rustLines ['a', '\n', 'b'])[0]? ∧
      ∀ j, (annotatedLines ['a', '\n', 'b']
            [(RBound.included 0, RBound.included 0)])[j]? =
          (rustLines ['a', '\n', 'b'])[j]? ∨
        ∃ l, (rustLines ['a', '\n', 'b'])[j]? = some l ∧
          startsWithCommentMarker l = false ∧
          (∀ r ∈ ([(RBound.included 0, RBound.included 0)] :
              List (RBound × RBound)), rangeContains r j = false) ∧
          (annotatedLines ['a', '\n', 'b']
            [(RBound.included 0, RBound.included 0)])[j]? =
            some ('#' :: ' ' :: l)) :=
  ⟨by decide,
    c10_selected_lines_unchanged ['a', '\n', 'b']
      [(RBound.included 0, RBound.included 0)] 0 (by decide)⟩

/-! ## Splitting and parsing lemmas -/

/-- `splitOnChar` of a separator-free string is that single piece. -/
theorem splitOnChar_of_not_mem (sep : Char) (a : List Char) (h : sep ∉ a) :
    splitOnChar sep a = [a] := by
  induction a with
  | nil => rfl
  | cons c cs ih =>
    have hc : ¬ c = sep := fun he => h (he ▸ List.mem_cons_self c cs)
    have hcs : sep ∉ cs := fun hm => h (List.mem_cons_of_mem c hm)
    simp only [splitOnChar, if_neg hc, ih hcs]

/-- `splitOnChar` peels off a separator-free first piece. -/
theorem splitOnChar_append_sep (sep : Char) (a rest : List Char) (h : sep ∉ a) :
    splitOnChar sep (a ++ sep :: rest) = a :: splitOnChar sep rest := by
  induction a with
  | nil => simp [splitOnChar]
  | cons c cs ih =>
    have hc : ¬ c = sep := fun he => h (he ▸ List.mem_cons_self c cs)
    have hcs : sep ∉ cs := fun hm => h (List.mem_cons_of_mem c hm)
    simp only [List.cons_append, splitOnChar, if_neg hc, List.append_eq, ih hcs]

/-- `splitOnChar` never returns the empty list of pieces. -/
theorem splitOnChar_ne_nil (sep : Char) (cs : List Char) :
    splitOnChar sep cs ≠ [] := by
  cases cs with
  | nil => simp [splitOnChar]
  | cons c cs =>
    by_cases hc : c = sep
    · simp [splitOnChar, hc]
    · simp only [splitOnChar, if_neg hc]
      split <;> simp

/-- `split_once(':')` splits at the first colon. -/
theorem splitOnceColon_append (path rest : List Char) (h : ':' ∉ path) :
    splitOnceColon (path ++ ':' :: rest) = some (path, rest) := by
  induction path with
  | nil => simp [splitOnceColon]
  | cons c cs ih =>
    have hc : ¬ c = ':' := fun he => h (he ▸ List.mem_cons_self c cs)
    have hcs : ':' ∉ cs := fun hm => h (List.mem_cons_of_mem c hm)
    simp only [List.cons_append, splitOnceColon, if_neg hc, List.append_eq, ih hcs,
      Option.map_some']

/-- The optional leading `'+'` of an unsigned parse: either nothing is
stripped, or the input starts with `'+'` and exactly that char is stripped. -/
theorem stripPlus_cases (cs : List Char) :
    stripPlus cs = cs ∨ ∃ rest, cs = '+' :: rest ∧ stripPlus cs = rest := by
  unfold stripPlus
  split
  · next rest => right; exact ⟨rest, rfl, rfl⟩
  · left; rfl

/-- A successful unsigned parse means the digit part is non-empty and
all-digits. -/
theorem parseUnsigned_digits (bound : Nat) (cs : List Char) (n : Nat)
    (h : parseUnsigned bound cs = some n) :
    (stripPlus cs).all Char.isDigit = true ∧ (stripPlus cs).isEmpty = false := by
  unfold parseUnsigned at h
  by_cases h1 : (stripPlus cs).isEmpty
  · rw [if_pos h1] at h; exact absurd h (by simp)
  · rw [if_neg h1] at h
    by_cases h2 : (stripPlus cs).all Char.isDigit
    · exact ⟨h2, by simpa using h1⟩
    · rw [if_neg h2] at h; exact absurd h (by simp)

/-- Characters of a successfully parsed number are digits or the sign, so a
non-digit char other than `'+'` cannot occur in the input. -/
theorem parseUnsigned_some_not_mem (bound : Nat) (cs : List Char) (n : Nat)
    (x : Char) (h : parseUnsigned bound cs = some n) (hx : x.isDigit = false)
    (hplus : x ≠ '+') : x ∉ cs := by
  obtain ⟨hall, -⟩ := parseUnsigned_digits bound cs n h
  intro hmem
  rcases stripPlus_cases cs with hs | ⟨rest, hcs, hs⟩
  · rw [hs] at hall
    have := List.all_eq_true.mp hall x hmem
    rw [hx] at this
    exact absurd this (by decide)
  · subst hcs
    rcases List.mem_cons.mp hmem with he | hmem
    · exact hplus he
    · rw [hs] at hall
      have := List.all_eq_true.mp hall x hmem
      rw [hx] at this
      exact absurd this (by decide)

/-- The empty string never parses as a number. -/
theorem parseUnsigned_nil (bound : Nat) : parseUnsigned bound [] = none := rfl

/-- A successfully parsed number string is non-empty. -/
theorem parseUnsigned_some_ne_nil (bound : Nat) (cs : List Char) (n : Nat)
    (h : parseUnsigned bound cs = some n) : cs ≠ [] := by
  intro he
  subst he
  rw [parseUnsigned_nil] at h
  exact Option.noConfusion h

/-- `intercalate` on at least two pieces peels off the first piece and one
separator. -/
theorem intercalate_cons_of_ne_nil {α : Type} (sep : List α) (x : List α)
    (xs : List (List α)) (h : xs ≠ []) :
    List.intercalate sep (x :: xs) = x ++ sep ++ List.intercalate sep xs := by
  rcases xs with _ | ⟨y, ys⟩
  · contradiction
  · unfold List.intercalate
    rw [List.intersperse_cons₂]
    simp [List.flatten_cons, List.append_assoc]

/-- `intercalate` on a single piece is that piece. -/
theorem intercalate_single {α : Type} (sep : List α) (x : List α) :
    List.intercalate sep [x] = x := by
  unfold List.intercalate
  simp

/-- Splitting an intercalation of separator-free pieces recovers the
pieces. -/
theorem splitOnChar_intercalate (sep : Char) (entries : List (List Char))
    (hne : entries ≠ []) (h : ∀ e ∈ entries, sep ∉ e) :
    splitOnChar sep (List.intercalate [sep] entries) = entries := by
  induction entries with
  | nil => exact absurd rfl hne
  | cons e es ih =>
    cases es with
    | nil =>
      rw [intercalate_single]
      exact splitOnChar_of_not_mem sep e (h e (List.mem_cons_self e []))
    | cons e2 es2 =>
      rw [intercalate_cons_of_ne_nil [sep] e (e2 :: es2) (by simp)]
      rw [List.append_assoc, List.singleton_append]
      rw [splitOnChar_append_sep sep e _ (h e (List.mem_cons_self e (e2 :: es2)))]
      rw [ih (by simp) (fun x hx => h x (List.mem_cons_of_mem e hx))]

/-- The two-piece (`"N:M"`) arm of `parse_range`, shared by the grammar and
half-open-interval results. -/
theorem parse_range_append_colon (a b : List Char) (hca : ':' ∉ a)
    (hcb : ':' ∉ b) (hna : a ≠ []) (hnb : b ≠ []) :
    parse_range (a ++ ':' :: b) =
      match parseUsize a, parseUsize b with
      | some n, some m => some (RBound.included n, RBound.excluded m)
      | _, _ => none := by
  obtain ⟨c, cs, rfl⟩ := List.exists_cons_of_ne_nil hna
  obtain ⟨d, ds, rfl⟩ := List.exists_cons_of_ne_nil hnb
  unfold parse_range
  rw [splitOnChar_append_sep ':' _ _ hca, splitOnChar_of_not_mem ':' _ hcb]

/-! ## C5 -/

/-- C5: `parse_range` implements exactly the single-range grammar of the
spec: the empty string is invalid; a single colon-free piece `N` gives
`(Included N, Included N)` when `N` parses (else invalid); `":"` gives
`(Unbounded, Unbounded)`; `"N:"` gives `(Included N, Unbounded)`; `":N"`
gives `(Unbounded, Excluded N)`; `"N:M"` gives
`(Included N, Excluded M)` when both bounds parse (else invalid); and any
input with two or more colons is invalid. -/
theorem c5_parse_range_grammar :
    parse_range [] = none ∧
    (∀ a : List Char, ':' ∉ a → a ≠ [] →
      parse_range a =
        (parseUsize a).map (fun n => (RBound.included n, RBound.included n))) ∧
    parse_range [':'] = some (RBound.unbounded, RBound.unbounded) ∧
    (∀ a : List Char, ':' ∉ a → a ≠ [] →
      parse_range (a ++ [':']) =
        (parseUsize a).map (fun n => (RBound.included n, RBound.unbounded))) ∧
    (∀ b : List Char, ':' ∉ b → b ≠ [] →
      parse_range (':' :: b) =
        (parseUsize b).map (fun n => (RBound.unbounded, RBound.excluded n))) ∧
    (∀ a b : List Char, ':' ∉ a → ':' ∉ b → a ≠ [] → b ≠ [] →
      parse_range (a ++ ':' :: b) =
        (parseUsize a).bind (fun n => (parseUsize b).map
          (fun m => (RBound.included n, RBound.excluded m)))) ∧
    (∀ a b c : List Char, ':' ∉ a → ':' ∉ b →
      parse_range (a ++ ':' :: b ++ ':' :: c) = none) := by
  refine ⟨rfl, ?_, by decide, ?_, ?_, ?_, ?_⟩
  · intro a hcol hne
    obtain ⟨c, cs, rfl⟩ := List.exists_cons_of_ne_nil hne
    unfold parse_range
    rw [splitOnChar_of_not_mem ':' _ hcol]
  · intro a hcol hne
    obtain ⟨c, cs, rfl⟩ := List.exists_cons_of_ne_nil hne
    unfold parse_range
    rw [show ((c :: cs) ++ [':'] : List Char) = (c :: cs) ++ ':' :: [] from rfl]
    rw [splitOnChar_append_sep ':' _ [] hcol]
    rfl
  · intro b hcol hne
    obtain ⟨c, cs, rfl⟩ := List.exists_cons_of_ne_nil hne
    unfold parse_range
    rw [show splitOnChar ':' (':' :: (c :: cs)) = [] :: splitOnChar ':' (c :: cs)
      from by simp [splitOnChar]]
    rw [splitOnChar_of_not_mem ':' _ hcol]
  · intro a b hca hcb hna hnb
    rw [parse_range_append_colon a b hca hcb hna hnb]
    rcases hpa : parseUsize a with _ | n <;>
      rcases hpb : parseUsize b with _ | m <;> simp [hpa, hpb]
  · intro a b c hca hcb
    unfold parse_range
    rw [show (a ++ ':' :: b ++ ':' :: c : List Char) =
      a ++ ':' :: (b ++ ':' :: c) from by simp]
    rw [splitOnChar_append_sep ':' _ _ hca, splitOnChar_append_sep ':' _ _ hcb]
    obtain ⟨p, ps, hsp⟩ := List.exists_cons_of_ne_nil (splitOnChar_ne_nil ':' c)
    rw [hsp]
    rcases a with _ | ⟨a1, as⟩ <;> rcases b with _ | ⟨b1, bs⟩ <;> rfl

/-- C5 (witness): the theorem's single-piece clause applied to the concrete
range string `"2"`. -/
theorem c5_parse_range_grammar_witness :
    (':' ∉ (['2'] : List Char)) ∧ (['2'] : List Char) ≠ [] ∧
    parse_range ['2'] =
      (parseUsize ['2']).map (fun n => (RBound.included n, RBound.included n)) :=
  ⟨by decide, by decide, c5_parse_range_grammar.2.1 ['2'] (by decide) (by decide)⟩

/-! ## C6 -/

/-- C6: for every expression `"N:M"` (two colon-free numerals that parse to
`N` and `M`) with `N < M`, `parse_range` yields
`(Included N, Excluded M)`, and the annotator's membership test accepts a
line index `i` iff `N ≤ i < M`. -/
theorem c6_half_open_selection (a b : List Char) (N M i : Nat)
    (ha : parseUsize a = some N) (hb : parseUsize b = some M) (hNM : N < M) :
    parse_range (a ++ ':' :: b) = some (RBound.included N, RBound.excluded M) ∧
    (rangeContains (RBound.included N, RBound.excluded M) i = true ↔
      N ≤ i ∧ i < M) := by
  have hca : ':' ∉ a :=
    parseUnsigned_some_not_mem (2 ^ 64) a N ':' ha (by decide) (by decide)
  have hcb : ':' ∉ b :=
    parseUnsigned_some_not_mem (2 ^ 64) b M ':' hb (by decide) (by decide)
  have hna : a ≠ [] := parseUnsigned_some_ne_nil (2 ^ 64) a N ha
  have hnb : b ≠ [] := parseUnsigned_some_ne_nil (2 ^ 64) b M hb
  constructor
  · rw [parse_range_append_colon a b hca hcb hna hnb, ha, hb]
  · simp [rangeContains, rangeContainsLower, rangeContainsUpper]

/-- C6 (witness): the theorem at `"2:4"` with membership tested at index 3. -/
theorem c6_half_open_selection_witness :
    parseUsize ['2'] = some 2 ∧ parseUsize ['4'] = some 4 ∧ 2 < 4 ∧
    (parse_range (['2'] ++ ':' :: ['4']) =
        some (RBound.included 2, RBound.excluded 4) ∧
      (rangeContains (RBound.included 2, RBound.excluded 4) 3 = true ↔
        2 ≤ 3 ∧ 3 < 4)) :=
  ⟨by decide, by decide, by decide,
    c6_half_open_selection ['2'] ['4'] 2 4 3 (by decide) (by decide) (by decide)⟩

/-! ## C7 -/

/-- On well-formed array syntax `path:[e1,...,en]` (colon-free path,
comma-free entries), `parse_path_and_ranges` returns the path and exactly
the per-entry parses of the trimmed entries, dropping failures. -/
theorem parse_path_and_ranges_array (path : List Char)
    (entries : List (List Char)) (hpath : ':' ∉ path) (hne : entries ≠ [])
    (hcomma : ∀ e ∈ entries, ',' ∉ e) :
    parse_path_and_ranges (mkArrayCmd path entries) =
      (path, entries.filterMap (fun e => parse_range (trimChars e))) := by
  unfold mkArrayCmd parse_path_and_ranges
  rw [splitOnceColon_append path _ hpath]
  simp only
  have hlast : ('[' :: (List.intercalate [','] entries ++ [']']) :
      List Char).getLast? = some ']' := by
    rw [show ('[' :: (List.intercalate [','] entries ++ [']']) : List Char) =
      ('[' :: List.intercalate [','] entries) ++ [']'] from by simp]
    exact List.getLast?_concat _
  rw [if_pos ⟨rfl, hlast⟩]
  have hdrop : ((('[' :: (List.intercalate [','] entries ++ [']']) :
      List Char).drop 1).dropLast) = List.intercalate [','] entries := by
    simp
  rw [hdrop, splitOnChar_intercalate ',' entries hne hcomma,
    List.filterMap_map]
  rfl

/-- C7: array range syntax splits the bracketed content on commas, trims
each piece and parses the pieces independently: the concrete input
`"path:[2, 4:8, 16:]"` yields exactly the three ranges
`(Included 2, Included 2)`, `(Included 4, Excluded 8)`,
`(Included 16, Unbounded)`; in general the range list is the list of
successful per-entry parses, an entry that fails to parse is dropped
without invalidating the others, and the result is empty iff all entries
fail. -/
theorem c7_array_ranges :
    parse_path_and_ranges
        ['p', 'a', 't', 'h', ':', '[', '2', ',', ' ', '4', ':', '8', ',',
          ' ', '1', '6', ':', ']'] =
      (['p', 'a', 't', 'h'],
        [(RBound.included 2, RBound.included 2),
          (RBound.included 4, RBound.excluded 8),
          (RBound.included 16, RBound.unbounded)]) ∧
    (∀ (path : List Char) (entries : List (List Char)), ':' ∉ path →
      entries ≠ [] → (∀ e ∈ entries, ',' ∉ e) →
      parse_path_and_ranges (mkArrayCmd path entries) =
        (path, entries.filterMap (fun e => parse_range (trimChars e)))) ∧
    (∀ (path : List Char) (l1 l2 : List (List Char)) (bad : List Char),
      ':' ∉ path → (∀ e ∈ l1 ++ bad :: l2, ',' ∉ e) →
      parse_range (trimChars bad) = none →
      (parse_path_and_ranges (mkArrayCmd path (l1 ++ bad :: l2))).2 =
        (l1 ++ l2).filterMap (fun e => parse_range (trimChars e))) ∧
    (∀ (path : List Char) (entries : List (List Char)), ':' ∉ path →
      entries ≠ [] → (∀ e ∈ entries, ',' ∉ e) →
      (∀ e ∈ entries, parse_range (trimChars e) = none) →
      (parse_path_and_ranges (mkArrayCmd path entries)).2 = []) := by
  refine ⟨by decide, parse_path_and_ranges_array, ?_, ?_⟩
  · intro path l1 l2 bad hpath hcomma hbad
    rw [parse_path_and_ranges_array path (l1 ++ bad :: l2) hpath (by simp)
      hcomma]
    simp [List.filterMap_append, List.filterMap_cons, hbad]
  · intro path entries hpath hne hcomma hfail
    rw [parse_path_and_ranges_array path entries hpath hne hcomma]
    simpa using hfail

/-- C7 (witness): the general clause applied to the concrete path `"p"`
with entries `"2"` and `"x"` (the second fails and is dropped). -/
theorem c7_array_ranges_witness :
    (':' ∉ (['p'] : List Char)) ∧
    ([['2'], ['x']] : List (List Char)) ≠ [] ∧
    (∀ e ∈ ([['2'], ['x']] : List (List Char)), ',' ∉ e) ∧
    parse_path_and_ranges (mkArrayCmd ['p'] [['2'], ['x']]) =
      (['p'], [['2'], ['x']].filterMap (fun e => parse_range (trimChars e))) :=
  ⟨by decide, by decide, by decide,
    c7_array_ranges.2.1 ['p'] [['2'], ['x']] (by decide) (by decide)
      (by decide)⟩

/-! ## Line-splitting round-trip lemmas (for C3 and C8) -/

/-- `lineTermStrip` only drops characters, so its members come from `acc`. -/
theorem mem_of_mem_lineTermStrip (acc : List Char) (x : Char)
    (h : x ∈ lineTermStrip acc) : x ∈ acc := by
  unfold lineTermStrip at h
  split at h
  · next rest =>
    rw [List.mem_reverse] at h
    exact List.mem_cons_of_mem _ h
  · rwa [List.mem_reverse] at h

/-- Unfolding equation of `rustLinesAux` at the end of input. -/
theorem rustLinesAux_nil (acc : List Char) :
    rustLinesAux [] acc = if acc = [] then [] else [acc.reverse] := by
  cases acc with
  | nil => rfl
  | cons c cs => simp [rustLinesAux]

/-- Unfolding equation of `rustLinesAux` on one input char. -/
theorem rustLinesAux_cons (c : Char) (cs acc : List Char) :
    rustLinesAux (c :: cs) acc =
      if c = '\n' then lineTermStrip acc :: rustLinesAux cs []
      else rustLinesAux cs (c :: acc) := rfl

/-- Every line produced by `rustLinesAux` avoids `x` when `x` is the line
separator itself or occurs neither in the remaining input nor in the
accumulator. -/
theorem rustLinesAux_lines_avoid (x : Char) (cs : List Char) :
    ∀ acc : List Char, (x = '\n' ∨ x ∉ cs) → x ∉ acc →
      ∀ l ∈ rustLinesAux cs acc, x ∉ l := by
  induction cs with
  | nil =>
    intro acc _ hacc l hl
    rw [rustLinesAux_nil] at hl
    by_cases ha : acc = []
    · rw [if_pos ha] at hl
      exact absurd hl (List.not_mem_nil l)
    · rw [if_neg ha] at hl
      have he := List.mem_singleton.mp hl
      subst he
      rw [List.mem_reverse]
      exact hacc
  | cons c rest ih =>
    intro acc hcs hacc l hl
    have hcs' : x = '\n' ∨ x ∉ rest := by
      rcases hcs with h | h
      · exact Or.inl h
      · exact Or.inr (fun hm => h (List.mem_cons_of_mem c hm))
    rw [rustLinesAux_cons] at hl
    by_cases hc : c = '\n'
    · rw [if_pos hc] at hl
      rcases List.mem_cons.mp hl with he | hl2
      · subst he
        intro hx
        exact hacc (mem_of_mem_lineTermStrip acc x hx)
      · exact ih [] hcs' (List.not_mem_nil x) l hl2
    · rw [if_neg hc] at hl
      have hacc' : x ∉ c :: acc := by
        intro hm
        rcases List.mem_cons.mp hm with he | hm2
        · rcases hcs with h | h
          · exact hc (he ▸ h)
          · exact h (he ▸ List.mem_cons_self c rest)
        · exact hacc hm2
      exact ih (c :: acc) hcs' hacc' l hl

/-- On newline-free input, `rustLinesAux` produces one line (or nothing when
both input and accumulator are empty). -/
theorem rustLinesAux_no_newline (l : List Char) :
    ∀ acc : List Char, '\n' ∉ l →
      rustLinesAux l acc =
        if l = [] ∧ acc = [] then [] else [acc.reverse ++ l] := by
  induction l with
  | nil =>
    intro acc _
    rw [rustLinesAux_nil]
    by_cases ha : acc = []
    · simp [ha]
    · simp [ha]
  | cons c cs ih =>
    intro acc h
    have hc : ¬ c = '\n' := fun he => h (he ▸ List.mem_cons_self c cs)
    have hcs : '\n' ∉ cs := fun hm => h (List.mem_cons_of_mem c hm)
    rw [rustLinesAux_cons, if_neg hc, ih (c :: acc) hcs]
    rw [if_neg (by simp), if_neg (by simp)]
    simp

/-- `rustLinesAux` emits the accumulated first line at the first newline. -/
theorem rustLinesAux_append_newline (l : List Char) :
    ∀ (cs acc : List Char), '\n' ∉ l →
      rustLinesAux (l ++ '\n' :: cs) acc =
        lineTermStrip (l.reverse ++ acc) :: rustLinesAux cs [] := by
  induction l with
  | nil =>
    intro cs acc _
    simp [rustLinesAux_cons]
  | cons c l' ih =>
    intro cs acc h
    have hc : ¬ c = '\n' := fun he => h (he ▸ List.mem_cons_self c l')
    have hl' : '\n' ∉ l' := fun hm => h (List.mem_cons_of_mem c hm)
    rw [List.cons_append, rustLinesAux_cons, if_neg hc, ih cs (c :: acc) hl']
    congr 2
    simp

/-- Reversing a carriage-return-free line commutes with the
newline-terminator stripping. -/
theorem lineTermStrip_reverse (l : List Char) (h : '\r' ∉ l) :
    lineTermStrip l.reverse = l := by
  unfold lineTermStrip
  split
  · next rest heq =>
    exfalso
    apply h
    rw [← List.mem_reverse, heq]
    exact List.mem_cons_self _ _
  · exact List.reverse_reverse l

/-- Round trip: re-splitting an intercalation of newline-free,
carriage-return-free lines whose last line is non-empty recovers exactly
those lines. -/
theorem rustLines_intercalate (ls : List (List Char))
    (h : ∀ l ∈ ls, '\n' ∉ l ∧ '\r' ∉ l) (hlast : ls.getLast? ≠ some []) :
    rustLines (List.intercalate ['\n'] ls) = ls := by
  induction ls with
  | nil => rfl
  | cons l ls ih =>
    cases ls with
    | nil =>
      rw [intercalate_single]
      have hl := h l (List.mem_cons_self l [])
      have hlne : l ≠ [] := by
        intro he
        subst he
        exact hlast rfl
      unfold rustLines
      rw [rustLinesAux_no_newline l [] hl.1]
      rw [if_neg (by simp [hlne])]
      simp
    | cons l2 ls2 =>
      rw [intercalate_cons_of_ne_nil ['\n'] l (l2 :: ls2) (by simp)]
      rw [List.append_assoc, List.singleton_append]
      unfold rustLines
      rw [rustLinesAux_append_newline l _ [] (h l (List.mem_cons_self l _)).1]
      rw [List.append_nil, lineTermStrip_reverse l (h l (List.mem_cons_self l _)).2]
      congr 1
      exact ih (fun x hx => h x (List.mem_cons_of_mem l hx))
        (by rw [List.getLast?_cons_cons] at hlast; exact hlast)

/-- The per-line annotation is idempotent: an already-annotated line starts
with `"# "` and is left alone. -/
theorem annotateLine_idem (R : List (RBound × RBound)) (i : Nat)
    (l : List Char) :
    annotateLine R i (annotateLine R i l) = annotateLine R i l := by
  unfold annotateLine
  by_cases h : (!startsWithCommentMarker l && R.all fun r => !rangeContains r i) = true
  · rw [if_pos h, if_neg (by simp [startsWithCommentMarker])]
  · rw [if_neg h, if_neg h]

/-- Each line is either left unchanged or gains exactly the `"# "` marker. -/
theorem annotateLine_eq_or (R : List (RBound × RBound)) (i : Nat)
    (l : List Char) :
    annotateLine R i l = l ∨ annotateLine R i l = '#' :: ' ' :: l := by
  unfold annotateLine
  by_cases h : (!startsWithCommentMarker l && R.all fun r => !rangeContains r i) = true
  · right; rw [if_pos h]
  · left; rw [if_neg h]

/-- Annotating preserves the number of lines. -/
theorem annotateFrom_length (R : List (RBound × RBound)) (n : Nat)
    (ls : List (List Char)) : (annotateFrom R n ls).length = ls.length := by
  induction ls generalizing n with
  | nil => rfl
  | cons l rest ih => simp [annotateFrom, ih]

/-- Annotating an already-annotated line vector changes nothing. -/
theorem annotateFrom_idem (R : List (RBound × RBound)) (n : Nat)
    (ls : List (List Char)) :
    annotateFrom R n (annotateFrom R n ls) = annotateFrom R n ls := by
  induction ls generalizing n with
  | nil => rfl
  | cons l rest ih => simp [annotateFrom, annotateLine_idem, ih (n + 1)]

/-- Annotation introduces only `'#'` and `' '`, so any other absent
character stays absent from every line. -/
theorem annotateFrom_avoid (x : Char) (hx1 : x ≠ '#') (hx2 : x ≠ ' ')
    (R : List (RBound × RBound)) (n : Nat) (ls : List (List Char))
    (h : ∀ l ∈ ls, x ∉ l) : ∀ l ∈ annotateFrom R n ls, x ∉ l := by
  induction ls generalizing n with
  | nil => intro l hl; exact absurd hl (List.not_mem_nil l)
  | cons hd rest ih =>
    intro l hl
    rcases List.mem_cons.mp hl with he | hl2
    · subst he
      rcases annotateLine_eq_or R n hd with he2 | he2 <;> rw [he2]
      · exact h hd (List.mem_cons_self hd rest)
      · intro hm
        rcases List.mem_cons.mp hm with h1 | hm2
        · exact hx1 h1
        · rcases List.mem_cons.mp hm2 with h2 | hm3
          · exact hx2 h2
          · exact h hd (List.mem_cons_self hd rest) hm3
    · exact ih (n + 1) (fun y hy => h y (List.mem_cons_of_mem hd hy)) l hl2

/-! ## C3 -/

/-- C3 (counterexample): the claim asserts `take_lines_comment_out_rest`
always returns a string with the same line count as the input, re-joined
with the input's original line separator.  At the concrete input `"a\n\n"`
(two lines, the second empty) with a fully-unbounded range, the output is
`"a\n"`, which has one line, not two; and at the CRLF input `"a\r\nb"` with
a fully-unbounded range the output is `"a\nb"`: the function always re-joins
with a bare LF, not the original `"\r\n"` separator. -/
theorem c3_line_count_and_separator_refuted :
    (rustLines (take_lines_comment_out_rest ['a', '\n', '\n']
        [(RBound.unbounded, RBound.unbounded)])).length ≠
      (rustLines ['a', '\n', '\n']).length ∧
    take_lines_comment_out_rest ['a', '\r', '\n', 'b']
        [(RBound.unbounded, RBound.unbounded)] = ['a', '\n', 'b'] := by
  decide

/-- C3 (amended): `take_lines_comment_out_rest` is pure and total and always
re-joins the lines with a single LF (never the input's original separator,
and without restoring a trailing terminator); for inputs that contain no
carriage return and whose final annotated line is non-empty, the output has
the same line count as the input. -/
theorem c3_line_count_preserved (s : List Char) (R : List (RBound × RBound))
    (hr : '\r' ∉ s) (hlast : (annotatedLines s R).getLast? ≠ some []) :
    (rustLines (take_lines_comment_out_rest s R)).length =
      (rustLines s).length := by
  have hnl : ∀ l ∈ rustLines s, '\n' ∉ l :=
    rustLinesAux_lines_avoid '\n' s [] (Or.inl rfl) (List.not_mem_nil _)
  have hcr : ∀ l ∈ rustLines s, '\r' ∉ l :=
    rustLinesAux_lines_avoid '\r' s [] (Or.inr hr) (List.not_mem_nil _)
  have hA : ∀ l ∈ annotatedLines s R, '\n' ∉ l ∧ '\r' ∉ l := fun l hl =>
    ⟨annotateFrom_avoid '\n' (by decide) (by decide) R 0 _ hnl l hl,
      annotateFrom_avoid '\r' (by decide) (by decide) R 0 _ hcr l hl⟩
  have hround : rustLines (take_lines_comment_out_rest s R) =
      annotatedLines s R := rustLines_intercalate _ hA hlast
  rw [hround]
  exact annotateFrom_length R 0 (rustLines s)

/-- C3 (witness): the amended theorem at the concrete input `"a\nb"` with an
empty range set. -/
theorem c3_line_count_preserved_witness :
    ('\r' ∉ (['a', '\n', 'b'] : List Char)) ∧
    (annotatedLines ['a', '\n', 'b'] []).getLast? ≠ some [] ∧
    (rustLines (take_lines_comment_out_rest ['a', '\n', 'b'] [])).length =
      (rustLines ['a', '\n', 'b']).length :=
  ⟨by decide, by decide,
    c3_line_count_preserved ['a', '\n', 'b'] [] (by decide) (by decide)⟩

/-! ## C8 -/

/-- C8 (counterexample): the claim asserts the annotator is idempotent for
every input and range set.  At the input `"a\n\n"` with a fully-unbounded
range (every line selected), the first application returns `"a\n"` and the
second returns `"a"`: the trailing empty line is lost by the
`lines`/`join` round trip, so re-application changes the string. -/
theorem c8_idempotence_refuted :
    take_lines_comment_out_rest
        (take_lines_comment_out_rest ['a', '\n', '\n']
          [(RBound.unbounded, RBound.unbounded)])
        [(RBound.unbounded, RBound.unbounded)] ≠
      take_lines_comment_out_rest ['a', '\n', '\n']
        [(RBound.unbounded, RBound.unbounded)] := by
  decide

/-- C8 (amended): for every input containing no carriage return and whose
final annotated line is non-empty, applying `take_lines_comment_out_rest`
with the same range set to its own output yields the identical string: a
line that already starts with `"# "` is never prefixed a second time. -/
theorem c8_idempotent_on_cr_free (s : List Char) (R : List (RBound × RBound))
    (hr : '\r' ∉ s) (hlast : (annotatedLines s R).getLast? ≠ some []) :
    take_lines_comment_out_rest (take_lines_comment_out_rest s R) R =
      take_lines_comment_out_rest s R := by
  have hnl : ∀ l ∈ rustLines s, '\n' ∉ l :=
    rustLinesAux_lines_avoid '\n' s [] (Or.inl rfl) (List.not_mem_nil _)
  have hcr : ∀ l ∈ rustLines s, '\r' ∉ l :=
    rustLinesAux_lines_avoid '\r' s [] (Or.inr hr) (List.not_mem_nil _)
  have hA : ∀ l ∈ annotatedLines s R, '\n' ∉ l ∧ '\r' ∉ l := fun l hl =>
    ⟨annotateFrom_avoid '\n' (by decide) (by decide) R 0 _ hnl l hl,
      annotateFrom_avoid '\r' (by decide) (by decide) R 0 _ hcr l hl⟩
  have hround : rustLines (take_lines_comment_out_rest s R) =
      annotateFrom R 0 (rustLines s) := rustLines_intercalate _ hA hlast
  show List.intercalate ['\n']
      (annotateFrom R 0 (rustLines (take_lines_comment_out_rest s R))) =
    take_lines_comment_out_rest s R
  rw [hround, annotateFrom_idem R 0 (rustLines s)]
  rfl

/-- C8 (witness): the amended theorem at the concrete input `"a\nb"` with an
empty range set (both lines get annotated once and stay fixed). -/
theorem c8_idempotent_on_cr_free_witness :
    ('\r' ∉ (['a', '\n', 'b'] : List Char)) ∧
    (annotatedLines ['a', '\n', 'b'] []).getLast? ≠ some [] ∧
    take_lines_comment_out_rest
        (take_lines_comment_out_rest ['a', '\n', 'b'] []) [] =
      take_lines_comment_out_rest ['a', '\n', 'b'] [] :=
  ⟨by decide, by decide,
    c8_idempotent_on_cr_free ['a', '\n', 'b'] [] (by decide) (by decide)⟩
